import Mathlib

/-!
Shallow embedding of the gri-core editing core: the graph document
(`src/graph.rs`), the modal input machine (`src/editor/mode.rs`) and the
editor session with its undo tree (`src/editor/state.rs`).

Rust `HashMap<i64, V>` values are modelled as association lists
`List (Int × V)` kept in insertion order; `insert` replaces an existing
binding in place or appends a fresh one, `remove` drops the binding with
the given key.  Rust panics (`panic!`, `.expect`, `.unwrap`) are modelled
as `Except.error`; where a panic interrupts a sequence of in-place
mutations, the error value carries the state reached at the moment of the
panic, since the Rust `&mut self` has already been partially mutated.
-/

set_option autoImplicit false

universe u

/-- A vertex of the document graph (`struct Vertex` in `graph.rs`). -/
structure Vertex where
  id : Int
  deriving DecidableEq, Repr

/-- An edge of the document graph (`struct Edge` in `graph.rs`). -/
structure Edge where
  id : Int
  source : Int
  target : Int
  deriving DecidableEq, Repr

/-- One atomic mutation command (`enum GraphOperation` in `graph.rs`). -/
inductive GraphOperation where
  | AddVertex (v : Vertex)
  | RemoveVertex (v : Vertex)
  | AddEdge (e : Edge)
  | RemoveEdge (e : Edge)
  deriving DecidableEq, Repr

/-- An ordered sequence of operations (`struct Diff` in `graph.rs`). -/
structure Diff where
  operations : List GraphOperation
  deriving DecidableEq, Repr

/-- `GraphOperation::invert`: the total, involutive inverse of an operation. -/
def GraphOperation.invert : GraphOperation → GraphOperation
  | .AddVertex v => .RemoveVertex v
  | .RemoveVertex v => .AddVertex v
  | .AddEdge e => .RemoveEdge e
  | .RemoveEdge e => .AddEdge e

/-- Lookup in the association-list model of `HashMap<i64, V>`. -/
def lookupA {α : Type u} (k : Int) : List (Int × α) → Option α
  | [] => none
  | p :: t => if p.1 = k then some p.2 else lookupA k t

/-- Key membership, as `HashMap::contains_key`. -/
def containsA {α : Type u} (k : Int) (l : List (Int × α)) : Bool :=
  (lookupA k l).isSome

/-- `HashMap::insert`: replace the binding in place when the key is present,
append a fresh binding otherwise. -/
def insertA {α : Type u} (k : Int) (v : α) : List (Int × α) → List (Int × α)
  | [] => [(k, v)]
  | p :: t => if p.1 = k then (k, v) :: t else p :: insertA k v t

/-- `HashMap::remove`: drop the binding with the given key. -/
def removeA {α : Type u} (k : Int) (l : List (Int × α)) : List (Int × α) :=
  l.filter (fun p => decide (p.1 ≠ k))

/-- The document (`struct Graph` in `graph.rs`): a vertex map and an edge map. -/
structure Graph where
  vertices : List (Int × Vertex)
  edges : List (Int × Edge)
  deriving DecidableEq, Repr

/-- `Graph::new`: the empty document. -/
def Graph.new : Graph := ⟨[], []⟩

/-- `Graph::add_vertex`: insert if the id is absent and record `AddVertex`,
otherwise an empty diff (the Rust `HashMap::insert` still replaces the
stored vertex in place). -/
def Graph.add_vertex (g : Graph) (v : Vertex) : Graph × Diff :=
  let old := lookupA v.id g.vertices
  let g2 : Graph := { g with vertices := insertA v.id v g.vertices }
  match old with
  | none => (g2, ⟨[.AddVertex v]⟩)
  | some _ => (g2, ⟨[]⟩)

/-- Whether an edge is incident to the given vertex id (the test inside the
`remove_vertex` loop in `graph.rs`). -/
def incident (vid : Int) (e : Edge) : Bool :=
  decide (e.source = vid) || decide (e.target = vid)

/-- `Graph::remove_vertex`: if the vertex is present, remove it, remove each
edge incident to it by edge id, and record `RemoveVertex` followed by one
`RemoveEdge` per removed edge.  The Rust code collects the incident edges
into a `HashSet` and iterates it in arbitrary order; that iteration is
modelled here as the edge map's list (insertion) order. -/
def Graph.remove_vertex (g : Graph) (v : Vertex) : Graph × Diff :=
  if containsA v.id g.vertices then
    let toRemove : List Edge := (g.edges.map Prod.snd).filter (incident v.id)
    let removedIds : List Int := toRemove.map Edge.id
    ({ vertices := removeA v.id g.vertices,
       edges := g.edges.filter (fun p => decide (p.1 ∉ removedIds)) },
     ⟨.RemoveVertex v :: toRemove.map GraphOperation.RemoveEdge⟩)
  else (g, ⟨[]⟩)

/-- `Graph::add_edge`: panics (modelled as `Except.error`) when either
endpoint is absent from the vertex map; otherwise inserts and records
`AddEdge` only when the edge id is fresh (as in `add_vertex`, a duplicate
id still replaces the stored edge in place while yielding an empty diff). -/
def Graph.add_edge (g : Graph) (e : Edge) : Except String (Graph × Diff) :=
  if ¬ containsA e.source g.vertices then
    .error ("Unknown vertex " ++ toString e.source)
  else if ¬ containsA e.target g.vertices then
    .error ("Unknown vertex " ++ toString e.target)
  else
    let old := lookupA e.id g.edges
    let g2 : Graph := { g with edges := insertA e.id e g.edges }
    match old with
    | none => .ok (g2, ⟨[.AddEdge e]⟩)
    | some _ => .ok (g2, ⟨[]⟩)

/-- `Graph::remove_edge`: remove by id when present, recording `RemoveEdge`
of the argument payload; otherwise an empty diff. -/
def Graph.remove_edge (g : Graph) (e : Edge) : Graph × Diff :=
  if containsA e.id g.edges then
    ({ g with edges := removeA e.id g.edges }, ⟨[.RemoveEdge e]⟩)
  else (g, ⟨[]⟩)

/-- `Graph::apply`: dispatch a single operation.  `AddEdge` may panic. -/
def Graph.apply (g : Graph) : GraphOperation → Except String (Graph × Diff)
  | .AddVertex v => .ok (g.add_vertex v)
  | .RemoveVertex v => .ok (g.remove_vertex v)
  | .AddEdge e => g.add_edge e
  | .RemoveEdge e => .ok (g.remove_edge e)

/-- `Graph::apply_all`: apply each operation in order, concatenating the
effective diffs.  A panic interrupts the loop; the error carries the
document state already reached, since the earlier operations have mutated
the document in place. -/
def Graph.apply_all (g : Graph) : List GraphOperation → Except (String × Graph) (Graph × Diff)
  | [] => .ok (g, ⟨[]⟩)
  | op :: rest =>
    match g.apply op with
    | .error msg => .error (msg, g)
    | .ok (g2, d) =>
      match g2.apply_all rest with
      | .error e => .error e
      | .ok (g3, d2) => .ok (g3, ⟨d.operations ++ d2.operations⟩)

/-- Leading and trailing whitespace removal, as `str::trim`. -/
def trimChars (l : List Char) : List Char :=
  ((l.dropWhile Char.isWhitespace).reverse.dropWhile Char.isWhitespace).reverse

/-- Accumulate decimal digits; any non-digit character fails the parse. -/
def foldDigits : List Char → Nat → Option Nat
  | [], acc => some acc
  | c :: t, acc =>
    if c.isDigit then foldDigits t (acc * 10 + (c.toNat - 48)) else none

/-- A nonempty all-digit string parsed as a natural number. -/
def parseNatDigits (l : List Char) : Option Nat :=
  if l.isEmpty then none else foldDigits l 0

/-- Largest `i64` value. -/
def i64Max : Int := 9223372036854775807

/-- Smallest `i64` value. -/
def i64Min : Int := -9223372036854775808

/-- `str::parse::<i64>`: an optional sign followed by at least one digit,
rejecting values outside the `i64` range. -/
def parseI64 (l : List Char) : Option Int :=
  match l with
  | c :: t =>
    if c = '+' then
      (parseNatDigits t).bind (fun n => if (n : Int) ≤ i64Max then some (n : Int) else none)
    else if c = '-' then
      (parseNatDigits t).bind (fun n => if i64Min ≤ -(n : Int) then some (-(n : Int)) else none)
    else
      (parseNatDigits l).bind (fun n => if (n : Int) ≤ i64Max then some (n : Int) else none)
  | [] => none

/-- `Graph::resolve_vertex`: trim, parse as `i64`, and keep the id only when
it is a key of the vertex map. -/
def Graph.resolve_vertex (g : Graph) (s : List Char) : Option Int :=
  match parseI64 (trimChars s) with
  | some x => if containsA x g.vertices then some x else none
  | none => none

/-- A single logical key event (`enum Input` in `state.rs`). -/
inductive Input where
  | Key (c : Char)
  deriving DecidableEq, Repr

/-- Modelled from the spec: the key-constant module `editor/keys.rs` is
absent from the source snapshot; the spec reserves exactly two control
codes, Escape and Enter, alongside printable characters. -/
def ESC : Char := Char.ofNat 27

/-- Modelled from the spec: the Enter control code from the absent
`editor/keys.rs`. -/
def ENTER : Char := Char.ofNat 10

/-- Editor modes (`enum EditorMode` in `mode.rs`); the pending-edge mode
carries the accumulated raw text. -/
inductive EditorMode where
  | Command
  | Insert
  | InsertEdgePending (buf : List Char)
  deriving DecidableEq, Repr

/-- Abstract user intents emitted by the mode machine (`enum ModalOperation`).
The snapshot of `mode.rs` declares only the first two constructors, but
`state.rs` (and its tests) match on `Undo` and `Redo`; those two variants
are modelled from the spec's intent list. -/
inductive ModalOperation where
  | CreateNewVertex
  | CreateNewEdge (raw : List Char)
  | Undo
  | Redo
  deriving DecidableEq, Repr

/-- Outcome of one mode transition (`enum TransitionResult` in `mode.rs`). -/
inductive TransitionResult where
  | Apply (op : ModalOperation) (m : EditorMode)
  | ModeChange (m : EditorMode)
  | Error (msg : String) (m : EditorMode)
  deriving DecidableEq, Repr

/-- `EditorMode::unknown_command`: report an error and stay in the same mode.
The Rust message interpolates the input and mode; the formatting is elided
here since no claim depends on the message text. -/
def EditorMode.unknown_command (m : EditorMode) : TransitionResult :=
  .Error ("unknown command") m

/-- `EditorMode::transition`: the pure mode machine.  The Command-mode arms
for the keys `u` and `U` are modelled from the spec's transition table
(`| Command | u | Apply(Undo, Command) |`, `| Command | U | Apply(Redo,
Command) |`): they are absent from the snapshot's `mode.rs`, which predates
the undo feature that `state.rs` and its `undo_redo` test exercise through
the keys `U_LOWER` and `U_UPPER` of the absent `keys.rs`.  All remaining
arms follow `mode.rs` as given. -/
def EditorMode.transition (m : EditorMode) (i : Input) : TransitionResult :=
  match m, i with
  | .Command, .Key c =>
    if c = 'i' then .ModeChange .Insert
    else if c = 'u' then .Apply .Undo .Command
    else if c = 'U' then .Apply .Redo .Command
    else EditorMode.Command.unknown_command
  | .Insert, .Key c =>
    if c = ESC then .ModeChange .Command
    else if c = 'v' then .Apply .CreateNewVertex .Insert
    else if c = 'e' then .ModeChange (.InsertEdgePending [])
    else EditorMode.Insert.unknown_command
  | .InsertEdgePending s, .Key c =>
    if c = ESC then .ModeChange .Insert
    else if c = ENTER then .Apply (.CreateNewEdge s) .Insert
    else .ModeChange (.InsertEdgePending (s ++ [c]))

/-- `str::rsplit_once(sep)`: split at the last occurrence of the separator. -/
def rsplitOnce (sep : Char) : List Char → Option (List Char × List Char)
  | [] => none
  | c :: t =>
    match rsplitOnce sep t with
    | some (x, y) => some (c :: x, y)
    | none => if c = sep then some ([], t) else none

/-- One node of the `indextree::Arena<Diff>` undo tree: its diff, its
parent's arena index, and its children's indices in append order. -/
structure HistoryNode where
  diff : Diff
  parent : Option Nat
  children : List Nat
  deriving DecidableEq, Repr

/-- Apply a function to the node at the given arena index. -/
def updateAt (i : Nat) (f : HistoryNode → HistoryNode) : List HistoryNode → List HistoryNode
  | [] => []
  | h :: t =>
    match i with
    | 0 => f h :: t
    | j + 1 => h :: updateAt j f t

/-- `NodeId::append`: attach node `c` as the last child of node `p`. -/
def appendChild (a : List HistoryNode) (p c : Nat) : List HistoryNode :=
  updateAt c (fun n => { n with parent := some p })
    (updateAt p (fun n => { n with children := n.children ++ [c] }) a)

/-- The editor session (`struct EditorState` in `state.rs`). -/
structure EditorState where
  mode : EditorMode
  document : Graph
  history_tree : List HistoryNode
  last_edit : Option Nat
  next_vertex_id : Int
  next_edge_id : Int
  deriving DecidableEq, Repr

/-- `EditorState::new`: the initial session state. -/
def EditorState.new : EditorState :=
  ⟨.Command, Graph.new, [], none, 0, 0⟩

/-- The interpreter's verdict on one intent (`struct OpInterpretation`). -/
structure OpInterpretation where
  document_changes : Diff
  new_history_node : Bool
  set_last_edit : Option Nat
  deriving DecidableEq, Repr

/-- `OpInterpretation::default`: no changes, no history node, no cursor move. -/
def OpInterpretation.default : OpInterpretation :=
  ⟨⟨[]⟩, false, none⟩

/-- `OpInterpretation::standard_op`: record the operations as a fresh
history node. -/
def OpInterpretation.standard_op (ops : List GraphOperation) : OpInterpretation :=
  ⟨⟨ops⟩, true, none⟩

/-- `EditorState::interpret_modal_operation`.  The Rust `panic!` on an
unsplittable edge spec and the `.expect` on an unresolvable endpoint are
modelled as `Except.error` (the quoting of the offending text in the Rust
messages is elided); the returned state carries the id-counter updates the
Rust method performs on `self`. -/
def EditorState.interpret_modal_operation (st : EditorState) :
    ModalOperation → Except String (OpInterpretation × EditorState)
  | .CreateNewVertex =>
    let v : Vertex := ⟨st.next_vertex_id⟩
    .ok (OpInterpretation.standard_op [.AddVertex v],
         { st with next_vertex_id := st.next_vertex_id + 1 })
  | .CreateNewEdge raw =>
    match rsplitOnce ',' raw with
    | some (sourceId, targetId) =>
      match st.document.resolve_vertex sourceId with
      | none => .error ("Could not find source vertex")
      | some source =>
        match st.document.resolve_vertex targetId with
        | none => .error ("Could not find target vertex")
        | some target =>
          .ok (OpInterpretation.standard_op
                 [.AddEdge ⟨st.next_edge_id, source, target⟩],
               { st with next_edge_id := st.next_edge_id + 1 })
    | none => .error ("Unable to parse as a list of two vertex ids")
  | .Undo =>
    match st.last_edit with
    | none => .ok (OpInterpretation.default, st)
    | some id =>
      match st.history_tree[id]? with
      | none => .error ("unwrap on a missing history node")
      | some node =>
        .ok ({ document_changes := ⟨node.diff.operations.map GraphOperation.invert⟩,
               new_history_node := false,
               set_last_edit := node.parent }, st)
  | .Redo =>
    match st.last_edit with
    | none => .ok (OpInterpretation.default, st)
    | some id =>
      match st.history_tree[id]? with
      | none => .error ("unwrap on a missing history node")
      | some node =>
        match node.children.getLast? with
        | none => .ok (OpInterpretation.default, st)
        | some cid =>
          match st.history_tree[cid]? with
          | none => .error ("unwrap on a missing history node")
          | some cnode =>
            .ok ({ document_changes := cnode.diff,
                   new_history_node := false,
                   set_last_edit := some cid }, st)

/-- `EditorState::evaluate`: process one key.  The mode is adopted first;
an `Error` outcome only surfaces a message (the `println!` side channel is
elided) and adopts the mode.  For an `Apply` outcome the intent is
interpreted, the operations applied as one batch, and the history tree
updated: a standard edit appends a fresh node under the cursor and moves
the cursor there, and `set_last_edit` moves the cursor only when it is
`Some` (a `None` leaves the cursor untouched, exactly as the Rust
`if let Some(node_id) = interpreted_op.set_last_edit` does). -/
def EditorState.evaluate (st : EditorState) (i : Input) :
    Except (String × EditorState) EditorState :=
  match st.mode.transition i with
  | .ModeChange m => .ok { st with mode := m }
  | .Error _ m => .ok { st with mode := m }
  | .Apply op m =>
    let st1 : EditorState := { st with mode := m }
    match st1.interpret_modal_operation op with
    | .error msg => .error (msg, st1)
    | .ok (interp, st2) =>
      match st2.document.apply_all interp.document_changes.operations with
      | .error (msg, gPartial) => .error (msg, { st2 with document := gPartial })
      | .ok (g2, diff) =>
        let st3 : EditorState := { st2 with document := g2 }
        let st4 : EditorState :=
          if interp.new_history_node then
            let nid := st3.history_tree.length
            let arena1 := st3.history_tree ++ [⟨diff, none, []⟩]
            let arena2 :=
              match st3.last_edit with
              | some p => appendChild arena1 p nid
              | none => arena1
            { st3 with history_tree := arena2, last_edit := some nid }
          else st3
        match interp.set_last_edit with
        | some nid => .ok { st4 with last_edit := some nid }
        | none => .ok st4

/-- Evaluate a whole key sequence from a given state; a panic aborts the
run at the key that raised it. -/
def EditorState.evaluateAll (st : EditorState) :
    List Input → Except (String × EditorState) EditorState
  | [] => .ok st
  | i :: rest =>
    match st.evaluate i with
    | .error e => .error e
    | .ok st2 => st2.evaluateAll rest

/-- The panic message of a run, when the run panicked. -/
def panicMsg (r : Except (String × EditorState) EditorState) : Option String :=
  match r with
  | .error (msg, _) => some msg
  | .ok _ => none

/-- Invariant I1 of the spec: every edge's source and target id is a key of
the vertex map. -/
def I1 (g : Graph) : Prop :=
  ∀ p ∈ g.edges, containsA p.2.source g.vertices = true ∧
    containsA p.2.target g.vertices = true

/-- The edge ids recorded by the `RemoveEdge` entries of a diff, in order. -/
def removeEdgeIds (d : Diff) : List Int :=
  d.operations.filterMap (fun op =>
    match op with
    | .RemoveEdge e => some e.id
    | _ => none)

/-- Whether a list of ids is in ascending order. -/
def ascending : List Int → Bool
  | [] => true
  | [_] => true
  | a :: b :: t => decide (a ≤ b) && ascending (b :: t)

theorem lookupA_mem {α : Type u} {k : Int} {w : α} :
    ∀ {l : List (Int × α)}, lookupA k l = some w → (k, w) ∈ l := by
  intro l
  induction l with
  | nil => intro h; simp [lookupA] at h
  | cons p t ih =>
    intro h
    by_cases hk : p.1 = k
    · simp [lookupA, hk] at h
      have hp : (k, w) = p := by
        rw [← hk, ← h]
      rw [hp]
      exact List.mem_cons_self p t
    · simp [lookupA, hk] at h
      exact List.mem_cons_of_mem p (ih h)

theorem mem_insertA {α : Type u} {q : Int × α} {k : Int} {v : α} :
    ∀ {l : List (Int × α)}, q ∈ insertA k v l → q = (k, v) ∨ q ∈ l := by
  intro l
  induction l with
  | nil =>
    intro h
    simp [insertA] at h
    exact Or.inl h
  | cons p t ih =>
    intro h
    by_cases hk : p.1 = k
    · simp only [insertA, hk, if_pos] at h
      rcases List.mem_cons.mp h with h1 | h2
      · exact Or.inl h1
      · exact Or.inr (List.mem_cons_of_mem p h2)
    · simp only [insertA, hk, if_neg, not_false_iff] at h
      rcases List.mem_cons.mp h with h1 | h2
      · exact Or.inr (by rw [h1]; exact List.mem_cons_self p t)
      · rcases ih h2 with h3 | h4
        · exact Or.inl h3
        · exact Or.inr (List.mem_cons_of_mem p h4)

theorem lookupA_insertA_self {α : Type u} (k : Int) (v : α) :
    ∀ (l : List (Int × α)), lookupA k (insertA k v l) = some v := by
  intro l
  induction l with
  | nil => simp [insertA, lookupA]
  | cons p t ih =>
    by_cases hk : p.1 = k
    · simp [insertA, hk, lookupA]
    · simp [insertA, hk, lookupA, ih]

theorem lookupA_insertA_ne {α : Type u} {k j : Int} (hne : k ≠ j) (v : α) :
    ∀ (l : List (Int × α)), lookupA k (insertA j v l) = lookupA k l := by
  intro l
  induction l with
  | nil =>
    have hjk : ¬ j = k := fun h => hne h.symm
    simp [insertA, lookupA, hjk]
  | cons p t ih =>
    by_cases hpj : p.1 = j
    · have hjk : ¬ j = k := fun h => hne h.symm
      have hpk : ¬ p.1 = k := by rw [hpj]; exact hjk
      simp [insertA, hpj, lookupA, hpk, hjk]
    · by_cases hpk : p.1 = k
      · simp [insertA, hpj, lookupA, hpk, hne]
      · simp [insertA, hpj, lookupA, hpk, ih]

theorem containsA_insertA {α : Type u} (k j : Int) (v : α) (l : List (Int × α)) :
    containsA k (insertA j v l) = (decide (k = j) || containsA k l) := by
  by_cases hkj : k = j
  · subst hkj
    simp [containsA, lookupA_insertA_self]
  · simp [containsA, lookupA_insertA_ne hkj, hkj]

theorem insertA_self {α : Type u} {k : Int} {v : α} :
    ∀ {l : List (Int × α)}, lookupA k l = some v → insertA k v l = l := by
  intro l
  induction l with
  | nil => intro h; simp [lookupA] at h
  | cons p t ih =>
    intro h
    by_cases hk : p.1 = k
    · simp [lookupA, hk] at h
      have hp : (k, v) = p := by rw [← hk, ← h]
      simp only [insertA, hk, if_pos]
      rw [hp]
    · simp [lookupA, hk] at h
      simp [insertA, hk, ih h]

theorem removeA_cons {α : Type u} (k : Int) (p : Int × α) (t : List (Int × α)) :
    removeA k (p :: t) = if p.1 = k then removeA k t else p :: removeA k t := by
  by_cases hk : p.1 = k <;> simp [removeA, List.filter_cons, hk]

theorem lookupA_removeA_self {α : Type u} (k : Int) :
    ∀ (l : List (Int × α)), lookupA k (removeA k l) = none := by
  intro l
  induction l with
  | nil => rfl
  | cons p t ih =>
    rw [removeA_cons]
    by_cases hk : p.1 = k
    · simp [hk, ih]
    · simp [hk, lookupA, ih]

theorem lookupA_removeA_ne {α : Type u} {k j : Int} (hne : k ≠ j) :
    ∀ (l : List (Int × α)), lookupA k (removeA j l) = lookupA k l := by
  intro l
  induction l with
  | nil => rfl
  | cons p t ih =>
    rw [removeA_cons]
    by_cases hj : p.1 = j
    · have hjk : ¬ j = k := fun h => hne h.symm
      have hk : ¬ p.1 = k := by rw [hj]; exact hjk
      simp [hj, lookupA, hk, hjk, ih]
    · by_cases hk : p.1 = k
      · simp [hj, lookupA, hk, hne]
      · simp [hj, lookupA, hk, ih]

theorem containsA_removeA {α : Type u} {k j : Int} {l : List (Int × α)}
    (hne : k ≠ j) (h : containsA k l = true) :
    containsA k (removeA j l) = true := by
  simp only [containsA] at h ⊢
  rw [lookupA_removeA_ne hne l]
  exact h

/-- C1: in Command mode the transition function maps the key `u` to
`Apply(Undo, Command)` and the key `U` to `Apply(Redo, Command)`, so undo
and redo are reachable from Command mode by a single keystroke. -/
theorem C1_command_undo_redo :
    EditorMode.Command.transition (Input.Key 'u')
        = TransitionResult.Apply ModalOperation.Undo EditorMode.Command ∧
    EditorMode.Command.transition (Input.Key 'U')
        = TransitionResult.Apply ModalOperation.Redo EditorMode.Command := by
  exact ⟨rfl, rfl⟩

/-- C2: evaluating the malformed edge specification `x` (keys `i`, `e`,
`x`, Enter from the initial session) makes `interpret_modal_operation`
panic — the session halts instead of reporting a recoverable error.  At
the moment of the panic the mode is Insert, the document is untouched, no
history node exists and no edge id was consumed, so every part of the
claim except recoverability holds; the halt itself contradicts the claim. -/
theorem C2_malformed_edge_spec_panics :
    EditorState.new.evaluateAll
        [Input.Key 'i', Input.Key 'e', Input.Key 'x', Input.Key ENTER]
      = Except.error ("Unable to parse as a list of two vertex ids",
          ⟨EditorMode.Insert, Graph.new, [], none, 0, 0⟩) := by
  rfl

/-- C3: undoing a root edit applies the recorded inverse (the document
returns to the pristine empty graph) but leaves the cursor at the undone
root node instead of moving it to `none`: after keys `i`, `v`, Esc, `u`
the document is pristine yet `last_edit` is still `some 0`, because the
Rust `if let Some(node_id) = interpreted_op.set_last_edit` treats the
parentless case as "leave the cursor unchanged". -/
theorem C3_root_undo_cursor_stuck :
    EditorState.new.evaluateAll
        [Input.Key 'i', Input.Key 'v', Input.Key ESC, Input.Key 'u']
      = Except.ok ⟨EditorMode.Command, Graph.new,
          [⟨⟨[GraphOperation.AddVertex ⟨0⟩]⟩, none, []⟩], some 0, 1, 0⟩ := by
  rfl

/-- C4: after the standard edit `v` as the session's first edit (document
holds vertex 0), Undo restores the pristine document but Redo after that
Undo is a no-op — the cursor is stuck on the undone root node, whose node
has no children — so the document stays empty instead of regaining
vertex 0. -/
theorem C4_redo_after_root_undo_is_noop :
    EditorState.new.evaluateAll [Input.Key 'i', Input.Key 'v']
      = Except.ok ⟨EditorMode.Insert, ⟨[(0, ⟨0⟩)], []⟩,
          [⟨⟨[GraphOperation.AddVertex ⟨0⟩]⟩, none, []⟩], some 0, 1, 0⟩ ∧
    EditorState.new.evaluateAll
        [Input.Key 'i', Input.Key 'v', Input.Key ESC, Input.Key 'u', Input.Key 'U']
      = Except.ok ⟨EditorMode.Command, Graph.new,
          [⟨⟨[GraphOperation.AddVertex ⟨0⟩]⟩, none, []⟩], some 0, 1, 0⟩ := by
  exact ⟨rfl, rfl⟩

/-- C6 counterexample: removing vertex 1 from a document whose incident
edges were inserted with ids 2 then 1 yields the diff `RemoveVertex 1,
RemoveEdge (id 2), RemoveEdge (id 1)` — the `RemoveEdge` entries are not
in ascending edge-id order (the Rust code iterates a `HashSet` and never
sorts). -/
theorem C6_counterexample :
    (Graph.remove_vertex
        ⟨[(1, ⟨1⟩), (2, ⟨2⟩), (3, ⟨3⟩)], [(2, ⟨2, 1, 3⟩), (1, ⟨1, 1, 2⟩)]⟩ ⟨1⟩).2
      = ⟨[GraphOperation.RemoveVertex ⟨1⟩, GraphOperation.RemoveEdge ⟨2, 1, 3⟩,
          GraphOperation.RemoveEdge ⟨1, 1, 2⟩]⟩ ∧
    ascending (removeEdgeIds (Graph.remove_vertex
          ⟨[(1, ⟨1⟩), (2, ⟨2⟩), (3, ⟨3⟩)], [(2, ⟨2, 1, 3⟩), (1, ⟨1, 1, 2⟩)]⟩ ⟨1⟩).2)
      = false := by
  exact ⟨rfl, rfl⟩

/-- C7 counterexample: re-adding edge id 0 with a different target (both
endpoints present) returns an empty diff yet observably changes the
document — `HashMap::insert` silently replaces the stored edge `0 → 1`
with `0 → 2`. -/
theorem C7_counterexample :
    Graph.add_edge ⟨[(0, ⟨0⟩), (1, ⟨1⟩), (2, ⟨2⟩)], [(0, ⟨0, 0, 1⟩)]⟩ ⟨0, 0, 2⟩
      = Except.ok (⟨[(0, ⟨0⟩), (1, ⟨1⟩), (2, ⟨2⟩)], [(0, ⟨0, 0, 2⟩)]⟩, ⟨[]⟩) ∧
    (⟨[(0, ⟨0⟩), (1, ⟨1⟩), (2, ⟨2⟩)], [(0, ⟨0, 0, 2⟩)]⟩ : Graph)
      ≠ ⟨[(0, ⟨0⟩), (1, ⟨1⟩), (2, ⟨2⟩)], [(0, ⟨0, 0, 1⟩)]⟩ := by
  exact ⟨rfl, by decide⟩

/-- C8: `apply_all` does not validate preconditions before mutating: the
batch `AddVertex 5, AddEdge (0, 99 → 5)` on the empty document panics at
the second operation with vertex 5 already inserted, leaving the document
partially applied rather than as it was. -/
theorem C8_apply_all_not_atomic :
    Graph.new.apply_all
        [GraphOperation.AddVertex ⟨5⟩, GraphOperation.AddEdge ⟨0, 99, 5⟩]
      = Except.error ("Unknown vertex 99", ⟨[(5, ⟨5⟩)], []⟩) ∧
    (⟨[(5, ⟨5⟩)], []⟩ : Graph) ≠ Graph.new := by
  exact ⟨rfl, by decide⟩

/-- C9: the fatal `add_edge` precondition violation is reachable from user
input.  Keys `i v v e 0 , 1 Enter Esc u u u U U`: the third `u` undoes the
root edit but leaves the cursor on the root node, so the first `U` replays
`AddVertex 1` without first restoring vertex 0, and the second `U` replays
`AddEdge (0 → 1)` whose source vertex 0 is absent — `add_edge` panics with
"Unknown vertex 0". -/
theorem C9_add_edge_panic_reachable :
    panicMsg (EditorState.new.evaluateAll
      [Input.Key 'i', Input.Key 'v', Input.Key 'v', Input.Key 'e', Input.Key '0',
       Input.Key ',', Input.Key '1', Input.Key ENTER, Input.Key ESC, Input.Key 'u',
       Input.Key 'u', Input.Key 'u', Input.Key 'U', Input.Key 'U'])
      = some ("Unknown vertex 0") := by
  rfl

/-- C10: `remove_edge` matches by id only.  Whenever the argument's id is a
key of the edge map — even when the argument's source and target differ
from the stored edge's — the stored edge under that id is removed, other
bindings and the vertex map are untouched, and the diff records
`RemoveEdge` of the argument payload, not of the stored edge. -/
theorem C10_remove_edge_matches_by_id (g : Graph) (e : Edge)
    (h : containsA e.id g.edges = true) :
    (g.remove_edge e).2 = ⟨[GraphOperation.RemoveEdge e]⟩ ∧
    (g.remove_edge e).1.vertices = g.vertices ∧
    lookupA e.id (g.remove_edge e).1.edges = none ∧
    ∀ k : Int, k ≠ e.id → lookupA k (g.remove_edge e).1.edges = lookupA k g.edges := by
  have hre : g.remove_edge e
      = ({ g with edges := removeA e.id g.edges }, ⟨[GraphOperation.RemoveEdge e]⟩) := by
    simp [Graph.remove_edge, h]
  rw [hre]
  refine ⟨rfl, rfl, ?_, ?_⟩
  · exact lookupA_removeA_self e.id g.edges
  · intro k hk
    exact lookupA_removeA_ne hk g.edges

/-- C10 witness: removing the edge argument `(id 0, 7 → 8)` from a document
that stores `(id 0, 0 → 0)` removes the stored edge and records the
argument payload. -/
theorem C10_witness :
    (Graph.remove_edge ⟨[(0, ⟨0⟩)], [(0, ⟨0, 0, 0⟩)]⟩ ⟨0, 7, 8⟩).2
        = ⟨[GraphOperation.RemoveEdge ⟨0, 7, 8⟩]⟩ ∧
    lookupA 0 (Graph.remove_edge ⟨[(0, ⟨0⟩)], [(0, ⟨0, 0, 0⟩)]⟩ ⟨0, 7, 8⟩).1.edges
        = none := by
  have h := C10_remove_edge_matches_by_id ⟨[(0, ⟨0⟩)], [(0, ⟨0, 0, 0⟩)]⟩ ⟨0, 7, 8⟩ (by decide)
  exact ⟨h.1, h.2.2.1⟩

/-- C6 amended: for every graph and vertex present in it, `remove_vertex`
returns a diff whose first entry is `RemoveVertex v`, followed by one
`RemoveEdge` for exactly the edges stored in the edge map whose source or
target equals `v.id`; the order of those `RemoveEdge` entries is the edge
map's iteration order (a `HashSet` order in Rust, unspecified), not
guaranteed to be ascending by edge id. -/
theorem C6_remove_vertex_diff (g : Graph) (v : Vertex)
    (h : containsA v.id g.vertices = true) :
    ∃ tail, (g.remove_vertex v).2.operations = GraphOperation.RemoveVertex v :: tail ∧
      ∀ e : Edge, GraphOperation.RemoveEdge e ∈ tail ↔
        ((∃ k : Int, (k, e) ∈ g.edges) ∧ (e.source = v.id ∨ e.target = v.id)) := by
  refine ⟨((g.edges.map Prod.snd).filter (incident v.id)).map GraphOperation.RemoveEdge,
    ?_, ?_⟩
  · simp [Graph.remove_vertex, h]
  · intro e
    constructor
    · intro hm
      rcases List.mem_map.mp hm with ⟨e2, he2, heq⟩
      have he2e : e2 = e := by
        injection heq
      subst he2e
      rcases List.mem_filter.mp he2 with ⟨hmem, hinc⟩
      rcases List.mem_map.mp hmem with ⟨p, hp, hpe⟩
      refine ⟨⟨p.1, ?_⟩, ?_⟩
      · have : (p.1, e2) = p := by rw [← hpe]
        rw [this]
        exact hp
      · simpa [incident] using hinc
    · rintro ⟨⟨k, hk⟩, hinc⟩
      apply List.mem_map.mpr
      refine ⟨e, ?_, rfl⟩
      apply List.mem_filter.mpr
      constructor
      · exact List.mem_map.mpr ⟨(k, e), hk, rfl⟩
      · simpa [incident] using hinc

/-- C6 witness: removing vertex 1 from a one-edge document yields the diff
`RemoveVertex 1` followed by the incident edge's removal. -/
theorem C6_remove_vertex_diff_witness :
    ∃ tail,
      (Graph.remove_vertex ⟨[(1, ⟨1⟩)], [(7, ⟨7, 1, 1⟩)]⟩ ⟨1⟩).2.operations
        = GraphOperation.RemoveVertex ⟨1⟩ :: tail ∧
      ∀ e : Edge, GraphOperation.RemoveEdge e ∈ tail ↔
        ((∃ k : Int, (k, e) ∈ [((7 : Int), (⟨7, 1, 1⟩ : Edge))]) ∧
          (e.source = 1 ∨ e.target = 1)) :=
  C6_remove_vertex_diff ⟨[(1, ⟨1⟩)], [(7, ⟨7, 1, 1⟩)]⟩ ⟨1⟩ (by decide)

/-- C7 amended: applying `AddVertex(v)` when `v.id` is already a key, or
`AddEdge(e)` when `e.id` is already a key (endpoints present), returns an
empty diff.  `AddVertex` leaves the document observably unchanged (given
that stored vertices carry their own key as id, as every reachable
document does), but `AddEdge` replaces the stored edge under `e.id` with
the argument: the document is unchanged exactly when the stored edge
already equals `e`.  The two scenarios are independent: each half carries
only its own hypotheses, so the `AddVertex` half applies to any document,
including one whose edge map is empty. -/
theorem C7_duplicate_add (g : Graph) :
    (∀ v : Vertex, (∀ p ∈ g.vertices, p.2.id = p.1) →
      containsA v.id g.vertices = true →
      (g.add_vertex v).2 = ⟨[]⟩ ∧ (g.add_vertex v).1 = g) ∧
    (∀ e : Edge, containsA e.id g.edges = true →
      containsA e.source g.vertices = true →
      containsA e.target g.vertices = true →
      ∃ g2 : Graph, g.add_edge e = Except.ok (g2, ⟨[]⟩) ∧
        (g2 = g ↔ lookupA e.id g.edges = some e)) := by
  constructor
  · intro v hvc hv
    rcases Option.isSome_iff_exists.mp hv with ⟨w, hw⟩
    have hwv : w = v := by
      have hmem := lookupA_mem hw
      have hid := hvc _ hmem
      cases w with
      | mk wid =>
        cases v with
        | mk vid =>
          simp only at hid
          rw [hid]
    rw [hwv] at hw
    have hins : insertA v.id v g.vertices = g.vertices := insertA_self hw
    have hav : g.add_vertex v = (g, ⟨[]⟩) := by
      simp [Graph.add_vertex, hw, hins]
    rw [hav]
    exact ⟨rfl, rfl⟩
  · intro e he hs ht
    rcases Option.isSome_iff_exists.mp he with ⟨w2, hw2⟩
    have hae : g.add_edge e
        = Except.ok ({ g with edges := insertA e.id e g.edges }, ⟨[]⟩) := by
      simp [Graph.add_edge, hs, ht, hw2]
    refine ⟨{ g with edges := insertA e.id e g.edges }, hae, ?_⟩
    constructor
    · intro hg
      have hedges : insertA e.id e g.edges = g.edges := congrArg Graph.edges hg
      rw [← hedges]
      exact lookupA_insertA_self e.id e g.edges
    · intro hl
      have hedges : insertA e.id e g.edges = g.edges := insertA_self hl
      rw [hedges]

/-- C7 witness: re-adding vertex 0 to a one-vertex document with an empty
edge map leaves it unchanged with an empty diff, and re-adding the stored
edge `(id 0, 0 → 0)` unchanged gives an empty diff and an unchanged
document. -/
theorem C7_duplicate_add_witness :
    ((Graph.add_vertex ⟨[(0, ⟨0⟩)], []⟩ ⟨0⟩).2 = ⟨[]⟩ ∧
      (Graph.add_vertex ⟨[(0, ⟨0⟩)], []⟩ ⟨0⟩).1 = ⟨[(0, ⟨0⟩)], []⟩) ∧
    (∃ g2 : Graph,
      Graph.add_edge ⟨[(0, ⟨0⟩)], [(0, ⟨0, 0, 0⟩)]⟩ ⟨0, 0, 0⟩
          = Except.ok (g2, ⟨[]⟩) ∧
      (g2 = ⟨[(0, ⟨0⟩)], [(0, ⟨0, 0, 0⟩)]⟩ ↔
        lookupA 0 [((0 : Int), (⟨0, 0, 0⟩ : Edge))] = some ⟨0, 0, 0⟩)) :=
  ⟨(C7_duplicate_add ⟨[(0, ⟨0⟩)], []⟩).1 ⟨0⟩ (by decide) (by decide),
   (C7_duplicate_add ⟨[(0, ⟨0⟩)], [(0, ⟨0, 0, 0⟩)]⟩).2 ⟨0, 0, 0⟩
     (by decide) (by decide) (by decide)⟩

/-- Well-formedness of a reachable document: every edge binding's key is
the stored edge's id (as `add_edge` always inserts `(e.id, e)`), and
invariant I1 holds. -/
def wfG (g : Graph) : Prop :=
  (∀ p ∈ g.edges, p.1 = p.2.id) ∧ I1 g

theorem mem_removeA {α : Type u} {p : Int × α} {k : Int} {l : List (Int × α)}
    (hp : p ∈ removeA k l) : p ∈ l := by
  simp only [removeA] at hp
  exact (List.mem_filter.mp hp).1

theorem wfG_add_vertex (g : Graph) (v : Vertex) (hw : wfG g) :
    wfG (g.add_vertex v).1 := by
  obtain ⟨hKC, hI⟩ := hw
  have h1 : (g.add_vertex v).1 = { g with vertices := insertA v.id v g.vertices } := by
    rcases hla : lookupA v.id g.vertices with _ | w <;> simp [Graph.add_vertex, hla]
  rw [h1]
  constructor
  · intro p hp
    exact hKC p hp
  · intro p hp
    obtain ⟨h2, h3⟩ := hI p hp
    constructor
    · rw [containsA_insertA, h2, Bool.or_true]
    · rw [containsA_insertA, h3, Bool.or_true]

theorem wfG_remove_vertex (g : Graph) (v : Vertex) (hw : wfG g) :
    wfG (g.remove_vertex v).1 := by
  obtain ⟨hKC, hI⟩ := hw
  by_cases hc : containsA v.id g.vertices = true
  · have h1 : (g.remove_vertex v).1
        = { vertices := removeA v.id g.vertices,
            edges := g.edges.filter (fun p =>
              decide (p.1 ∉ ((g.edges.map Prod.snd).filter (incident v.id)).map Edge.id)) } := by
      simp [Graph.remove_vertex, hc]
    rw [h1]
    constructor
    · intro p hp
      exact hKC p (List.mem_filter.mp hp).1
    · intro p hp
      obtain ⟨hpm, hpf⟩ := List.mem_filter.mp hp
      have hnotin : p.1 ∉ ((g.edges.map Prod.snd).filter (incident v.id)).map Edge.id :=
        of_decide_eq_true hpf
      have hninc : incident v.id p.2 = false := by
        cases hcase : incident v.id p.2
        · rfl
        · exfalso
          apply hnotin
          apply List.mem_map.mpr
          exact ⟨p.2, List.mem_filter.mpr ⟨List.mem_map.mpr ⟨p, hpm, rfl⟩, hcase⟩,
            (hKC p hpm).symm⟩
      simp only [incident, Bool.or_eq_false_iff, decide_eq_false_iff_not] at hninc
      obtain ⟨h2, h3⟩ := hI p hpm
      exact ⟨containsA_removeA hninc.1 h2, containsA_removeA hninc.2 h3⟩
  · have h1 : (g.remove_vertex v).1 = g := by
      simp [Graph.remove_vertex, hc]
    rw [h1]
    exact ⟨hKC, hI⟩

theorem wfG_remove_edge (g : Graph) (e : Edge) (hw : wfG g) :
    wfG (g.remove_edge e).1 := by
  obtain ⟨hKC, hI⟩ := hw
  by_cases hc : containsA e.id g.edges = true
  · have h1 : (g.remove_edge e).1 = { g with edges := removeA e.id g.edges } := by
      simp [Graph.remove_edge, hc]
    rw [h1]
    constructor
    · intro p hp
      exact hKC p (mem_removeA hp)
    · intro p hp
      exact hI p (mem_removeA hp)
  · have h1 : (g.remove_edge e).1 = g := by
      simp [Graph.remove_edge, hc]
    rw [h1]
    exact ⟨hKC, hI⟩

theorem wfG_add_edge (g : Graph) (e : Edge) (g2 : Graph) (d : Diff)
    (hw : wfG g) (h : g.add_edge e = Except.ok (g2, d)) : wfG g2 := by
  obtain ⟨hKC, hI⟩ := hw
  by_cases hs : containsA e.source g.vertices = true
  · by_cases ht : containsA e.target g.vertices = true
    · have key : g.add_edge e
            = Except.ok ({ g with edges := insertA e.id e g.edges }, ⟨[.AddEdge e]⟩) ∨
          g.add_edge e
            = Except.ok ({ g with edges := insertA e.id e g.edges }, ⟨[]⟩) := by
        rcases hla : lookupA e.id g.edges with _ | w
        · exact Or.inl (by simp [Graph.add_edge, hs, ht, hla])
        · exact Or.inr (by simp [Graph.add_edge, hs, ht, hla])
      have hg2 : g2 = { g with edges := insertA e.id e g.edges } := by
        rcases key with hk | hk <;> rw [hk] at h <;> injection h with h2
        · exact (congrArg Prod.fst h2).symm
        · exact (congrArg Prod.fst h2).symm
      rw [hg2]
      constructor
      · intro p hp
        rcases mem_insertA hp with hpe | hpg
        · rw [hpe]
        · exact hKC p hpg
      · intro p hp
        rcases mem_insertA hp with hpe | hpg
        · rw [hpe]
          exact ⟨hs, ht⟩
        · exact hI p hpg
    · exfalso
      simp [Graph.add_edge, hs, ht] at h
  · exfalso
    simp [Graph.add_edge, hs] at h

/-- C5: invariant I1 (every edge's source and target id is a key of the
vertex map) holds at the initial document and is preserved by every single
successful application of a `GraphOperation` to a well-formed document:
removing a vertex removes all incident edges in the same step, and adding
an edge requires both endpoints present (otherwise the apply panics
instead of producing a state). -/
theorem C5_I1_preserved (g : Graph) (op : GraphOperation) (g2 : Graph) (d : Diff)
    (hw : wfG g) (h : g.apply op = Except.ok (g2, d)) :
    wfG Graph.new ∧ I1 g2 ∧ wfG g2 := by
  have hnew : wfG Graph.new := by
    constructor
    · intro p hp
      exact absurd hp (List.not_mem_nil p)
    · intro p hp
      exact absurd hp (List.not_mem_nil p)
  suffices hwf : wfG g2 from ⟨hnew, hwf.2, hwf⟩
  cases op with
  | AddVertex v =>
    simp only [Graph.apply] at h
    injection h with h2
    have hg2 : (g.add_vertex v).1 = g2 := congrArg Prod.fst h2
    rw [← hg2]
    exact wfG_add_vertex g v hw
  | RemoveVertex v =>
    simp only [Graph.apply] at h
    injection h with h2
    have hg2 : (g.remove_vertex v).1 = g2 := congrArg Prod.fst h2
    rw [← hg2]
    exact wfG_remove_vertex g v hw
  | AddEdge e =>
    exact wfG_add_edge g e g2 d hw h
  | RemoveEdge e =>
    simp only [Graph.apply] at h
    injection h with h2
    have hg2 : (g.remove_edge e).1 = g2 := congrArg Prod.fst h2
    rw [← hg2]
    exact wfG_remove_edge g e hw

/-- C5 witness: applying `AddEdge (0, 0 → 0)` to the well-formed one-vertex
document preserves I1. -/
theorem C5_witness :
    I1 ⟨[(0, ⟨0⟩)], [(0, ⟨0, 0, 0⟩)]⟩ :=
  (C5_I1_preserved ⟨[(0, ⟨0⟩)], []⟩ (GraphOperation.AddEdge ⟨0, 0, 0⟩)
    ⟨[(0, ⟨0⟩)], [(0, ⟨0, 0, 0⟩)]⟩ ⟨[GraphOperation.AddEdge ⟨0, 0, 0⟩]⟩
    ⟨fun p hp => absurd hp (List.not_mem_nil p),
     fun p hp => absurd hp (List.not_mem_nil p)⟩ (by rfl)).2.1
